import Mathlib

/-!
Verification of the weekly-completion accounting engine of the
contact-tracking backend (controllers/personController.ts, models,
validation/personValidation.ts).

Timestamps are modelled as integers: milliseconds since the Unix epoch
(1970-01-01T00:00:00, a Thursday), with the server clock normalized to UTC,
so that the JavaScript Date operations used by the code (getDay, setDate,
setHours(0,0,0,0), adding days, comparison of time values, toISOString)
become pure integer arithmetic.  JavaScript day-of-month arithmetic through
setDate normalizes overflow and underflow, so the sequence
`d.setDate(d.getDate() - k)` shifts the timestamp by exactly k days while
preserving the time of day, and `setHours(0,0,0,0)` truncates to the start
of the day.  The bucket key `week.toISOString().split(...)` taken at a
midnight timestamp is in bijection with the timestamp itself, so buckets
are keyed here by the timestamp.
-/

/-- Milliseconds in one day. -/
def msPerDay : Int := 86400000

/-- Milliseconds in one week. -/
def msPerWeek : Int := 7 * msPerDay

/-- Number of whole days since the epoch (floor).  For a positive divisor,
integer division on `Int` rounds toward negative infinity, matching the
JavaScript Date model for timestamps before 1970 as well. -/
def dayIndex (t : Int) : Int := t / msPerDay

/-- `d.setHours(0,0,0,0)`: truncate a timestamp to midnight of its day. -/
def startOfDay (t : Int) : Int := dayIndex t * msPerDay

/-- `d.getDay()`: day of week, 0 = Sunday .. 6 = Saturday.
The epoch day (index 0) is a Thursday, hence the offset 4. -/
def jsGetDay (t : Int) : Int := (dayIndex t + 4) % 7

/-- The number of days subtracted by
`diff = d.getDate() - day + (day === 0 ? -6 : 1)` in `getMondayOfWeek`:
the net shift applied through `setDate` is `-(day - 1)` for `day ≠ 0`
and `-6` for `day = 0` (Sunday). -/
def mondayOffset (t : Int) : Int := if jsGetDay t = 0 then 6 else jsGetDay t - 1

/-- `getMondayOfWeek` (personController.ts): shift to the Monday of the
week (Sunday counts as the last day of the preceding week) and zero the
time of day. -/
def getMondayOfWeek (t : Int) : Int := startOfDay (t - mondayOffset t * msPerDay)

/-- Fuel-indexed unrolling of the `while (current <= end)` loop of
`getWeeksBetween`.  The fuel only bounds the number of iterations; the
loop itself exits through its guard (see `weekLoop_unfold`). -/
def weekLoopFuel : Nat → Int → Int → List Int
  | 0, _, _ => []
  | fuel + 1, e, cur =>
    if cur ≤ e then cur :: weekLoopFuel fuel e (cur + msPerWeek) else []

/-- Exact number of iterations performed by the week loop. -/
def weekIter (e cur : Int) : Nat :=
  if cur ≤ e then ((e - cur) / msPerWeek).toNat + 1 else 0

/-- The `while (current <= end) { weeks.push(current); current += 7 days }`
loop of `getWeeksBetween`, started at `cur` with bound `e`. -/
def weekLoop (e cur : Int) : List Int :=
  weekLoopFuel (((e - cur) / msPerWeek).toNat + 1) e cur

/-- `getWeeksBetween(startDate, endDate)` (personController.ts): normalize
both ends to their Monday and walk in 7-day steps while `current <= end`. -/
def getWeeksBetween (startDate endDate : Int) : List Int :=
  weekLoop (getMondayOfWeek endDate) (getMondayOfWeek startDate)

/-! ## Data model

`PersonRec` models a TrackedEntity row: Mongo `_id`, the owner reference
`createdBy`, and the `createdAt` timestamp added by `timestamps: true`.
`ReportRec` models a WeeklyReport row as used by the statistics engine:
the `person` reference, the `reportedBy` filer reference and the `weekOf`
report-week date.  Identifiers are modelled as naturals. -/

structure PersonRec where
  id : Nat
  createdBy : Nat
  createdAt : Int
deriving Repr, DecidableEq

structure ReportRec where
  person : Nat
  reportedBy : Nat
  weekOf : Int
deriving Repr, DecidableEq

/-- One value of the `weekReportMap`: `{ expected, actual }`. -/
structure WeekStat where
  expected : Nat
  actual : Nat
deriving Repr, DecidableEq

/-- The `weekReportMap` JavaScript `Map`, modelled as an insertion-ordered
association list; `Map.set` on a fresh key appends at the end. -/
abbrev WeekMap := List (Int × WeekStat)

/-- `weekReportMap.has(weekKey)`. -/
def mapHas (m : WeekMap) (k : Int) : Bool := m.any (fun p => p.1 == k)

/-- Phase 1 step: `if (!map.has(k)) map.set(k, {expected:0, actual:0});
map.get(k).expected += 1`. -/
def incExpected (m : WeekMap) (k : Int) : WeekMap :=
  if mapHas m k then
    m.map (fun p => if p.1 == k then (p.1, ⟨p.2.expected + 1, p.2.actual⟩) else p)
  else
    m ++ [(k, ⟨1, 0⟩)]

/-- Phase 2 step: `if (map.has(weekKey)) map.get(weekKey).actual += 1`;
an event whose normalized week is not a key leaves the map unchanged. -/
def reportStep (m : WeekMap) (k : Int) : WeekMap :=
  if mapHas m k then
    m.map (fun p => if p.1 == k then (p.1, ⟨p.2.expected, p.2.actual + 1⟩) else p)
  else m

/-- `getWeeksBetween(getMondayOfWeek(person.createdAt), currentWeek)`:
the expected weeks of one entity. -/
def expectedWeeksOf (p : PersonRec) (currentWeek : Int) : List Int :=
  getWeeksBetween (getMondayOfWeek p.createdAt) currentWeek

/-- Phase 1 of the accumulator: seed every expected week of every person. -/
def buildExpectedMap (persons : List PersonRec) (currentWeek : Int) : WeekMap :=
  persons.foldl (fun m p => (expectedWeeksOf p currentWeek).foldl incExpected m) []

/-- The running total `totalExpectedReports += expectedWeeks.length`. -/
def totalExpectedOf (persons : List PersonRec) (currentWeek : Int) : Nat :=
  (persons.map (fun p => (expectedWeeksOf p currentWeek).length)).sum

/-- Phase 2 of the user-statistics accumulator: bump `actual` for every
report whose normalized `weekOf` hits an existing bucket. -/
def applyReports (m : WeekMap) (reports : List ReportRec) : WeekMap :=
  reports.foldl (fun acc r => reportStep acc (getMondayOfWeek r.weekOf)) m

/-- Phase 2 step of the admin accumulator, which also counts
`totalActualReports += 1` inside the `has` branch. -/
def adminReportStep (mc : WeekMap × Nat) (k : Int) : WeekMap × Nat :=
  if mapHas mc.1 k then (reportStep mc.1 k, mc.2 + 1) else mc

/-- Phase 2 of the admin accumulator over the valid reports. -/
def adminApplyReports (m : WeekMap) (reports : List ReportRec) : WeekMap × Nat :=
  reports.foldl (fun mc r => adminReportStep mc (getMondayOfWeek r.weekOf)) (m, 0)

/-- Result of the completion-rate computation:
`fixed1 v` stands for the string `(rate).toFixed(1)` whose numeric value is
`v` tenths of a percent, and `zeroStr` for the literal string `0` produced
by the `expected > 0 ? ... : "0"` guard.  The two are distinct values, as
the strings `0.0` and `0` are distinct. -/
inductive RateStr where
  | fixed1 : Nat → RateStr
  | zeroStr : RateStr
deriving Repr, DecidableEq

/-- `((actual / expected) * 100).toFixed(1)` over the exact rationals:
the number of tenths of a percent, rounding half up. -/
def rateTenths (actual expected : Nat) : Nat :=
  (2000 * actual + expected) / (2 * expected)

/-- `expected > 0 ? ((actual / expected) * 100).toFixed(1) : "0"`. -/
def completionRateOf (expected actual : Nat) : RateStr :=
  if 0 < expected then RateStr.fixed1 (rateTenths actual expected) else RateStr.zeroStr

/-- One entry of the `weekStats` array. -/
structure BucketOut where
  week : Int
  expected : Nat
  actual : Nat
  missing : Int
  completionRate : RateStr
deriving Repr, DecidableEq

/-- Derivation of a `weekStats` entry from one bucket of the map:
`missing = expected - actual` (a JavaScript number, hence an integer that
may be negative when duplicate reports overfill a bucket). -/
def bucketOut (k : Int) (s : WeekStat) : BucketOut :=
  { week := k
    expected := s.expected
    actual := s.actual
    missing := (s.expected : Int) - (s.actual : Int)
    completionRate := completionRateOf s.expected s.actual }

/-- The `weekStats` array in map iteration order (the response additionally
sorts it newest-first and slices the first 12 entries for display, which
does not change any bucket). -/
def weekStatsOf (m : WeekMap) : List BucketOut :=
  m.map (fun p => bucketOut p.1 p.2)

/-- `totalActualReports` of the user statistics: summed over the buckets. -/
def totalActualOf (m : WeekMap) : Nat := (m.map (fun p => p.2.actual)).sum

/-- `totalMissingReports`: summed `missing` over the buckets. -/
def totalMissingOf (m : WeekMap) : Int :=
  (m.map (fun p => (p.2.expected : Int) - (p.2.actual : Int))).sum

/-- Total `expected` held in the buckets. -/
def sumExpectedOf (m : WeekMap) : Nat := (m.map (fun p => p.2.expected)).sum

/-- Payload of `getUserStatistics` (the parts the spec covers).
`orphanWarning` is `some n` exactly when the response carries the
`Found n orphaned report(s)` warning. -/
structure UserStats where
  totalContacts : Nat
  totalReports : Nat
  totalExpectedReports : Nat
  totalActualReports : Nat
  totalMissingReports : Int
  reportCompletionRate : RateStr
  weekStats : List BucketOut
  orphanWarning : Option Nat
deriving Repr, DecidableEq

/-- `getUserStatistics` (personController.ts): statistics scoped to one
account.  The store queries become list filters: `validPersons` is
`Person.find({createdBy: userId})`, the scoped reports are
`WeeklyReport.find({reportedBy: userId, person: {$in: validPersonIds}})`,
and the orphan count is `countDocuments({reportedBy: userId,
person: {$nin: validPersonIds}})`. -/
def getUserStatistics (persons : List PersonRec) (reports : List ReportRec)
    (userId : Nat) (now : Int) : UserStats :=
  let validPersons := persons.filter (fun p => p.createdBy == userId)
  let validIds := validPersons.map (fun p => p.id)
  let currentWeek := getMondayOfWeek now
  let m0 := buildExpectedMap validPersons currentWeek
  let scopedReports := reports.filter (fun r => r.reportedBy == userId && validIds.contains r.person)
  let m := applyReports m0 scopedReports
  let orphaned := (reports.filter
    (fun r => r.reportedBy == userId && !(validIds.contains r.person))).length
  { totalContacts := validPersons.length
    totalReports := scopedReports.length
    totalExpectedReports := totalExpectedOf validPersons currentWeek
    totalActualReports := totalActualOf m
    totalMissingReports := totalMissingOf m
    reportCompletionRate := completionRateOf (totalExpectedOf validPersons currentWeek) (totalActualOf m)
    weekStats := weekStatsOf m
    orphanWarning := if 0 < orphaned then some orphaned else none }

/-- One entry of the admin `userReportStats` breakdown. -/
structure AdminUserStat where
  userId : Nat
  totalContacts : Nat
  expectedReports : Nat
  actualReports : Nat
  missingReports : Int
  completionRate : RateStr
deriving Repr, DecidableEq

/-- The per-account rollup computed inside `getAdminStatistics` for one
user `u`: `userPersons = Person.find({createdBy: u._id})`, the expected
total re-runs `getWeeksBetween` per person, while `userActual` is
`WeeklyReport.countDocuments({reportedBy: u._id, person: {$in:
userPersonIds}})` - a raw count with no week-bucket filter. -/
def adminUserStat (persons : List PersonRec) (reports : List ReportRec)
    (u : Nat) (currentWeek : Int) : AdminUserStat :=
  let userPersons := persons.filter (fun p => p.createdBy == u)
  let userPersonIds := userPersons.map (fun p => p.id)
  let userExpected := totalExpectedOf userPersons currentWeek
  let userActual := (reports.filter
    (fun r => r.reportedBy == u && userPersonIds.contains r.person)).length
  { userId := u
    totalContacts := userPersons.length
    expectedReports := userExpected
    actualReports := userActual
    missingReports := (userExpected : Int) - (userActual : Int)
    completionRate := completionRateOf userExpected userActual }

/-- Payload of `getAdminStatistics` (the parts the spec covers). -/
structure AdminStats where
  totalUsers : Nat
  activeUsers : Nat
  totalContacts : Nat
  totalReports : Nat
  totalExpectedReports : Nat
  totalActualReports : Nat
  totalMissingReports : Int
  reportCompletionRate : RateStr
  weekStats : List BucketOut
  userReportStats : List AdminUserStat
deriving Repr, DecidableEq

/-- `getAdminStatistics` (personController.ts): global statistics.
`users` is the Users collection (ids), `persons` and `reports` the full
stores.  `usersWithContacts = Person.distinct("createdBy")` is modelled by
`dedup`, and `Users.find({_id: {$in: usersWithContacts}})` by filtering
the users store. -/
def getAdminStatistics (users : List Nat) (persons : List PersonRec)
    (reports : List ReportRec) (now : Int) : AdminStats :=
  let validIds := persons.map (fun p => p.id)
  let validReports := reports.filter (fun r => validIds.contains r.person)
  let currentWeek := getMondayOfWeek now
  let m0 := buildExpectedMap persons currentWeek
  let mc := adminApplyReports m0 validReports
  let owners := (persons.map (fun p => p.createdBy)).dedup
  let statUsers := users.filter (fun u => owners.contains u)
  { totalUsers := users.length
    activeUsers := owners.length
    totalContacts := persons.length
    totalReports := validReports.length
    totalExpectedReports := totalExpectedOf persons currentWeek
    totalActualReports := mc.2
    totalMissingReports := totalMissingOf mc.1
    reportCompletionRate := completionRateOf (totalExpectedOf persons currentWeek) mc.2
    weekStats := weekStatsOf mc.1
    userReportStats := statUsers.map (fun u => adminUserStat persons reports u currentWeek) }

/-- HTTP error classes used by `addWeeklyReport`. -/
inductive ApiError where
  | badRequest : ApiError
  | notFound : ApiError
deriving Repr, DecidableEq

/-- A persisted WeeklyReport document (fields relevant to the claims);
`createdAt` is the filing time stamped by `timestamps: true`. -/
structure StoredReport where
  person : Nat
  reportedBy : Nat
  contacted : Bool
  response : String
  weekOf : Int
  createdAt : Int
deriving Repr, DecidableEq

/-- `weeklyReportSchema` (validation/personValidation.ts, current
revision): `contacted` must be a boolean (guaranteed by typing here),
`response` must have length 1..2000 after trimming (the response string
is modelled here as its post-trim whitespace-free content, which Joi both
validates and stores), and `weekOf` is an ISO date constrained by
`.max("now")`: it must not lie in the future relative to validation
time. -/
def weeklyReportSchemaOk (response : String) (weekOf now : Int) : Bool :=
  decide (1 ≤ response.length) && decide (response.length ≤ 2000)
    && decide (weekOf ≤ now)

/-- `addWeeklyReport` (personController.ts): validate the body, look the
person up with `Person.findOne({_id: personId, createdBy: req.userId})` -
the same owner-restricted query for every role, `req.role` is never read -
then persist the report with `reportedBy = req.userId` and
`createdAt = now`. -/
def addWeeklyReport (persons : List PersonRec) (userId : Nat) (role : String)
    (personId : Nat) (contacted : Bool) (response : String) (weekOf : Int)
    (now : Int) : Except ApiError StoredReport :=
  if !(weeklyReportSchemaOk response weekOf now) then
    Except.error ApiError.badRequest
  else
    match persons.find? (fun p => p.id == personId && p.createdBy == userId) with
    | none => Except.error ApiError.notFound
    | some _ =>
        Except.ok
          { person := personId
            reportedBy := userId
            contacted := contacted
            response := response
            weekOf := weekOf
            createdAt := now }

/-- Keys of the bucket map, in insertion order. -/
def keysOf (m : WeekMap) : List Int := m.map Prod.fst

theorem msPerWeek_eq : msPerWeek = 604800000 := by norm_num [msPerWeek, msPerDay]

theorem weekIter_step (e cur : Int) (hle : cur ≤ e) :
    weekIter e (cur + msPerWeek) + 1 = weekIter e cur := by
  simp only [weekIter, msPerWeek_eq]
  split_ifs with h1 <;> omega

theorem weekIter_le_fuel (e cur : Int) :
    weekIter e cur ≤ ((e - cur) / msPerWeek).toNat + 1 := by
  simp only [weekIter, msPerWeek_eq]
  split_ifs with h1 <;> omega

theorem weekLoopFuel_congr : ∀ (f g : Nat) (e cur : Int),
    weekIter e cur ≤ f → weekIter e cur ≤ g →
    weekLoopFuel f e cur = weekLoopFuel g e cur := by
  intro f
  induction f with
  | zero =>
    intro g e cur hf hg
    have hne : ¬ cur ≤ e := by
      intro hle
      simp only [weekIter, if_pos hle] at hf
      omega
    cases g with
    | zero => rfl
    | succ g => simp [weekLoopFuel, hne]
  | succ f ih =>
    intro g e cur hf hg
    cases g with
    | zero =>
      have hne : ¬ cur ≤ e := by
        intro hle
        simp only [weekIter, if_pos hle] at hg
        omega
      simp [weekLoopFuel, hne]
    | succ g =>
      simp only [weekLoopFuel]
      by_cases hle : cur ≤ e
      · simp only [if_pos hle]
        have hstep := weekIter_step e cur hle
        rw [ih g e (cur + msPerWeek) (by omega) (by omega)]
      · simp [hle]

theorem weekLoop_unfold (e cur : Int) :
    weekLoop e cur = if cur ≤ e then cur :: weekLoop e (cur + msPerWeek) else [] := by
  by_cases hle : cur ≤ e
  · rw [if_pos hle]
    have h1 : weekLoop e cur = weekLoopFuel (((e - cur) / msPerWeek).toNat + 1) e cur := rfl
    rw [h1]
    simp only [weekLoopFuel, if_pos hle]
    congr 1
    have h2 : weekLoop e (cur + msPerWeek)
        = weekLoopFuel (((e - (cur + msPerWeek)) / msPerWeek).toNat + 1) e (cur + msPerWeek) := rfl
    rw [h2]
    have hstep := weekIter_step e cur hle
    have hiter : weekIter e cur = ((e - cur) / msPerWeek).toNat + 1 := by
      simp [weekIter, hle]
    have hb := weekIter_le_fuel e (cur + msPerWeek)
    apply weekLoopFuel_congr
    · omega
    · exact hb
  · rw [if_neg hle]
    have h1 : weekLoop e cur = weekLoopFuel (((e - cur) / msPerWeek).toNat + 1) e cur := rfl
    rw [h1]
    simp [weekLoopFuel, hle]

theorem sub_mul_msPerDay_ediv (a b : Int) :
    (a - b * msPerDay) / msPerDay = a / msPerDay - b := by
  have h := Int.add_mul_ediv_right a (-b) (by norm_num [msPerDay] : msPerDay ≠ 0)
  have h2 : a + -b * msPerDay = a - b * msPerDay := by ring
  rw [h2] at h
  omega

theorem getMondayOfWeek_closed (t : Int) :
    getMondayOfWeek t = (dayIndex t - mondayOffset t) * msPerDay := by
  simp only [getMondayOfWeek, startOfDay, dayIndex]
  rw [sub_mul_msPerDay_ediv]

theorem dayIndex_mul (n : Int) : dayIndex (n * msPerDay) = n := by
  simp only [dayIndex]
  exact Int.mul_ediv_cancel n (by norm_num [msPerDay])

theorem jsGetDay_getMondayOfWeek (t : Int) : jsGetDay (getMondayOfWeek t) = 1 := by
  rw [getMondayOfWeek_closed]
  simp only [jsGetDay, dayIndex_mul, mondayOffset, jsGetDay, dayIndex, msPerDay]
  split_ifs with h <;> omega

theorem startOfDay_getMondayOfWeek (t : Int) :
    startOfDay (getMondayOfWeek t) = getMondayOfWeek t := by
  rw [getMondayOfWeek_closed]
  simp only [startOfDay, dayIndex_mul]

theorem getMondayOfWeek_idem (t : Int) :
    getMondayOfWeek (getMondayOfWeek t) = getMondayOfWeek t := by
  have h1 := jsGetDay_getMondayOfWeek t
  have h2 : mondayOffset (getMondayOfWeek t) = 0 := by
    rw [mondayOffset, h1]
    norm_num
  rw [getMondayOfWeek_closed (getMondayOfWeek t), h2]
  rw [getMondayOfWeek_closed t, dayIndex_mul]
  ring

theorem getMondayOfWeek_emod_week (t : Int) :
    getMondayOfWeek t % msPerWeek = 4 * msPerDay := by
  have h1 := jsGetDay_getMondayOfWeek t
  rw [getMondayOfWeek_closed] at h1 ⊢
  simp only [jsGetDay, dayIndex_mul] at h1
  rw [msPerWeek_eq]
  simp only [msPerDay] at h1 ⊢
  omega

theorem getMondayOfWeek_sunday (t : Int) (h : jsGetDay t = 0) :
    getMondayOfWeek t = startOfDay t - 6 * msPerDay := by
  rw [getMondayOfWeek_closed, mondayOffset, if_pos h, startOfDay]
  ring

theorem weekLoop_char : ∀ (k : Nat) (cur : Int),
    weekLoop (cur + k * msPerWeek) cur
      = (List.range (k + 1)).map (fun i : Nat => cur + (i : Int) * msPerWeek) := by
  intro k
  induction k with
  | zero =>
    intro cur
    rw [weekLoop_unfold]
    have h1 : cur ≤ cur + (0 : Nat) * msPerWeek := by simp
    rw [if_pos h1, weekLoop_unfold]
    have h2 : ¬ cur + msPerWeek ≤ cur + (0 : Nat) * msPerWeek := by
      simp only [msPerWeek_eq]
      push_cast
      omega
    rw [if_neg h2]
    simp [List.range_succ]
  | succ k ih =>
    intro cur
    have he : cur + ((k : Int) + 1) * msPerWeek = (cur + msPerWeek) + (k : Int) * msPerWeek := by ring
    rw [weekLoop_unfold]
    have h1 : cur ≤ cur + ((k : Nat) + 1 : Nat) * msPerWeek := by
      simp only [msPerWeek_eq]
      push_cast
      omega
    rw [if_pos h1]
    have h2 : cur + ((k : Nat) + 1 : Nat) * msPerWeek = (cur + msPerWeek) + (k : Int) * msPerWeek := by
      push_cast
      ring
    rw [h2, ih (cur + msPerWeek)]
    have h3 : List.range (k + 1 + 1) = 0 :: (List.range (k + 1)).map Nat.succ :=
      List.range_succ_eq_map (k + 1)
    rw [h3, List.map_cons, List.map_map]
    simp only [Nat.cast_zero, zero_mul, add_zero]
    congr 1
    apply List.map_congr_left
    intro i hi
    simp only [Function.comp_apply]
    push_cast
    ring

theorem getMondayOfWeek_emod_day (t : Int) : getMondayOfWeek t % msPerDay = 0 := by
  rw [getMondayOfWeek_closed]
  exact Int.mul_emod_left _ _

theorem getWeeksBetween_char (c r : Int) (h : getMondayOfWeek c ≤ getMondayOfWeek r) :
    ∃ k : Nat, getMondayOfWeek c + k * msPerWeek = getMondayOfWeek r ∧
      getWeeksBetween c r
        = (List.range (k + 1)).map (fun i : Nat => getMondayOfWeek c + (i : Int) * msPerWeek) := by
  have ha := getMondayOfWeek_emod_week c
  have hb := getMondayOfWeek_emod_week r
  obtain ⟨k, hk⟩ : ∃ k : Nat,
      getMondayOfWeek c + (k : Int) * msPerWeek = getMondayOfWeek r := by
    refine ⟨((getMondayOfWeek r - getMondayOfWeek c) / msPerWeek).toNat, ?_⟩
    simp only [msPerWeek_eq] at ha hb ⊢
    simp only [msPerDay] at ha hb
    omega
  refine ⟨k, hk, ?_⟩
  rw [getWeeksBetween, ← hk]
  exact weekLoop_char k (getMondayOfWeek c)

theorem getWeeksBetween_eq_nil_iff (c r : Int) :
    getWeeksBetween c r = [] ↔ getMondayOfWeek r < getMondayOfWeek c := by
  rw [getWeeksBetween, weekLoop_unfold]
  by_cases h : getMondayOfWeek c ≤ getMondayOfWeek r
  · rw [if_pos h]
    constructor
    · intro hfalse
      exact absurd hfalse (List.cons_ne_nil _ _)
    · intro hlt
      omega
  · rw [if_neg h]
    constructor
    · intro _
      omega
    · intro _
      rfl

theorem range_map_getLast? (k : Nat) (f : Nat → Int) :
    ((List.range (k + 1)).map f).getLast? = some (f k) := by
  rw [List.range_succ, List.map_append]
  simp

/-! ## Accumulator invariants -/

theorem mapHas_iff (m : WeekMap) (k : Int) : mapHas m k = true ↔ k ∈ keysOf m := by
  simp [mapHas, keysOf, List.any_eq_true, List.mem_map, beq_iff_eq]

theorem map_update_of_not_has (m : WeekMap) (k : Int)
    (f : Int × WeekStat → Int × WeekStat) (h : mapHas m k = false) :
    m.map (fun p => if p.1 == k then f p else p) = m := by
  induction m with
  | nil => rfl
  | cons a l ih =>
    simp only [mapHas, List.any_cons, Bool.or_eq_false_iff] at h
    have ha : ¬ (a.1 == k) = true := by simp [h.1]
    simp only [List.map_cons, if_neg ha]
    rw [ih h.2]

theorem keysOf_update (m : WeekMap) (k : Int) (g : Int × WeekStat → WeekStat) :
    keysOf (m.map (fun p => if p.1 == k then (p.1, g p) else p)) = keysOf m := by
  simp only [keysOf, List.map_map]
  apply List.map_congr_left
  intro p hp
  by_cases h : p.1 = k
  · simp [h]
  · simp [h]

theorem incExpected_keys (m : WeekMap) (k : Int) :
    keysOf (incExpected m k)
      = if mapHas m k then keysOf m else keysOf m ++ [k] := by
  rw [incExpected]
  by_cases h : mapHas m k = true
  · rw [if_pos h, if_pos h]
    exact keysOf_update m k _
  · rw [if_neg h, if_neg h]
    simp [keysOf]

theorem incExpected_nodup (m : WeekMap) (k : Int) (hnd : (keysOf m).Nodup) :
    (keysOf (incExpected m k)).Nodup := by
  rw [incExpected_keys]
  by_cases h : mapHas m k = true
  · rwa [if_pos h]
  · rw [if_neg h]
    have hk : k ∉ keysOf m := by
      intro hmem
      exact h ((mapHas_iff m k).mpr hmem)
    simp [List.nodup_append, hnd, hk]

theorem sumExpected_update (m : WeekMap) (k : Int) (hnd : (keysOf m).Nodup)
    (hk : mapHas m k = true) :
    sumExpectedOf (m.map (fun p =>
      if p.1 == k then (p.1, ⟨p.2.expected + 1, p.2.actual⟩) else p))
      = sumExpectedOf m + 1 := by
  induction m with
  | nil => simp [mapHas] at hk
  | cons a l ih =>
    simp only [keysOf, List.map_cons, List.nodup_cons] at hnd
    by_cases h : (a.1 == k) = true
    · have hak : a.1 = k := by simpa using h
      have hlk : mapHas l k = false := by
        rw [← Bool.not_eq_true]
        intro hmem
        exact hnd.1 (hak ▸ (mapHas_iff l k).mp hmem)
      simp only [List.map_cons, if_pos h]
      rw [map_update_of_not_has l k _ hlk]
      simp only [sumExpectedOf, List.map_cons, List.sum_cons]
      omega
    · have hlk : mapHas l k = true := by
        simp only [mapHas, List.any_cons] at hk
        rcases Bool.or_eq_true_iff.mp hk with h1 | h1
        · exact absurd h1 h
        · exact h1
      simp only [List.map_cons, if_neg h]
      have := ih hnd.2 hlk
      simp only [sumExpectedOf, List.map_cons, List.sum_cons] at this ⊢
      omega

theorem sumActual_update (m : WeekMap) (k : Int) (hnd : (keysOf m).Nodup)
    (hk : mapHas m k = true) :
    totalActualOf (m.map (fun p =>
      if p.1 == k then (p.1, ⟨p.2.expected, p.2.actual + 1⟩) else p))
      = totalActualOf m + 1 := by
  induction m with
  | nil => simp [mapHas] at hk
  | cons a l ih =>
    simp only [keysOf, List.map_cons, List.nodup_cons] at hnd
    by_cases h : (a.1 == k) = true
    · have hak : a.1 = k := by simpa using h
      have hlk : mapHas l k = false := by
        rw [← Bool.not_eq_true]
        intro hmem
        exact hnd.1 (hak ▸ (mapHas_iff l k).mp hmem)
      simp only [List.map_cons, if_pos h]
      rw [map_update_of_not_has l k _ hlk]
      simp only [totalActualOf, List.map_cons, List.sum_cons]
      omega
    · have hlk : mapHas l k = true := by
        simp only [mapHas, List.any_cons] at hk
        rcases Bool.or_eq_true_iff.mp hk with h1 | h1
        · exact absurd h1 h
        · exact h1
      simp only [List.map_cons, if_neg h]
      have := ih hnd.2 hlk
      simp only [totalActualOf, List.map_cons, List.sum_cons] at this ⊢
      omega

theorem reportStep_not_has (m : WeekMap) (k : Int) (h : mapHas m k = false) :
    reportStep m k = m := by
  rw [reportStep, if_neg (by simp [h])]

theorem reportStep_keys (m : WeekMap) (k : Int) :
    keysOf (reportStep m k) = keysOf m := by
  rw [reportStep]
  by_cases h : mapHas m k = true
  · rw [if_pos h]
    exact keysOf_update m k _
  · rw [if_neg h]

theorem reportStep_sumExpected (m : WeekMap) (k : Int) :
    sumExpectedOf (reportStep m k) = sumExpectedOf m := by
  rw [reportStep]
  by_cases h : mapHas m k = true
  · rw [if_pos h]
    simp only [sumExpectedOf, List.map_map]
    congr 1
    apply List.map_congr_left
    intro p hp
    by_cases hpk : p.1 = k
    · simp [hpk]
    · simp [hpk]
  · rw [if_neg h]

theorem reportStep_totalActual_has (m : WeekMap) (k : Int)
    (hnd : (keysOf m).Nodup) (h : mapHas m k = true) :
    totalActualOf (reportStep m k) = totalActualOf m + 1 := by
  rw [reportStep, if_pos h]
  exact sumActual_update m k hnd h

theorem adminReportStep_not_has (mc : WeekMap × Nat) (k : Int)
    (h : mapHas mc.1 k = false) : adminReportStep mc k = mc := by
  rw [adminReportStep, if_neg (by simp [h])]

theorem foldl_incExpected_invariant : ∀ (ws : List Int) (m : WeekMap),
    (keysOf m).Nodup →
    (keysOf (ws.foldl incExpected m)).Nodup ∧
    sumExpectedOf (ws.foldl incExpected m) = sumExpectedOf m + ws.length := by
  intro ws
  induction ws with
  | nil =>
    intro m hnd
    exact ⟨hnd, by simp⟩
  | cons w ws ih =>
    intro m hnd
    have hstep_nd := incExpected_nodup m w hnd
    have hstep_sum : sumExpectedOf (incExpected m w) = sumExpectedOf m + 1 := by
      rw [incExpected]
      by_cases h : mapHas m w = true
      · rw [if_pos h]
        exact sumExpected_update m w hnd h
      · rw [if_neg h]
        simp [sumExpectedOf]
    have := ih (incExpected m w) hstep_nd
    simp only [List.foldl_cons, List.length_cons]
    exact ⟨this.1, by rw [this.2, hstep_sum]; omega⟩

theorem buildExpectedMap_invariant_gen : ∀ (persons : List PersonRec) (cw : Int) (m : WeekMap),
    (keysOf m).Nodup →
    (keysOf (persons.foldl (fun acc p => (expectedWeeksOf p cw).foldl incExpected acc) m)).Nodup ∧
    sumExpectedOf (persons.foldl (fun acc p => (expectedWeeksOf p cw).foldl incExpected acc) m)
      = sumExpectedOf m + (persons.map (fun p => (expectedWeeksOf p cw).length)).sum := by
  intro persons cw
  induction persons with
  | nil =>
    intro m hnd
    exact ⟨hnd, by simp⟩
  | cons p ps ih =>
    intro m hnd
    have h1 := foldl_incExpected_invariant (expectedWeeksOf p cw) m hnd
    have h2 := ih ((expectedWeeksOf p cw).foldl incExpected m) h1.1
    simp only [List.foldl_cons, List.map_cons, List.sum_cons]
    exact ⟨h2.1, by rw [h2.2, h1.2]; omega⟩

theorem buildExpectedMap_nodup (persons : List PersonRec) (cw : Int) :
    (keysOf (buildExpectedMap persons cw)).Nodup :=
  (buildExpectedMap_invariant_gen persons cw [] (by simp [keysOf])).1

theorem buildExpectedMap_sumExpected (persons : List PersonRec) (cw : Int) :
    sumExpectedOf (buildExpectedMap persons cw) = totalExpectedOf persons cw := by
  have h := (buildExpectedMap_invariant_gen persons cw [] (by simp [keysOf])).2
  rw [buildExpectedMap, totalExpectedOf]
  rw [h]
  simp [sumExpectedOf]

theorem applyReports_invariant : ∀ (rs : List ReportRec) (m : WeekMap),
    keysOf (applyReports m rs) = keysOf m ∧
    sumExpectedOf (applyReports m rs) = sumExpectedOf m := by
  intro rs
  induction rs with
  | nil =>
    intro m
    exact ⟨rfl, rfl⟩
  | cons r rs ih =>
    intro m
    have h1 := reportStep_keys m (getMondayOfWeek r.weekOf)
    have h2 := reportStep_sumExpected m (getMondayOfWeek r.weekOf)
    have h3 := ih (reportStep m (getMondayOfWeek r.weekOf))
    simp only [applyReports, List.foldl_cons] at h3 ⊢
    exact ⟨h3.1.trans h1, h3.2.trans h2⟩

theorem totalMissingOf_eq (m : WeekMap) :
    totalMissingOf m = (sumExpectedOf m : Int) - (totalActualOf m : Int) := by
  induction m with
  | nil => simp [totalMissingOf, sumExpectedOf, totalActualOf]
  | cons a l ih =>
    simp only [totalMissingOf, sumExpectedOf, totalActualOf, List.map_cons, List.sum_cons] at ih ⊢
    rw [ih]
    push_cast
    ring

theorem accumulator_missing (ps : List PersonRec) (rs : List ReportRec) (cw : Int) :
    totalMissingOf (applyReports (buildExpectedMap ps cw) rs)
      = (totalExpectedOf ps cw : Int)
        - (totalActualOf (applyReports (buildExpectedMap ps cw) rs) : Int) := by
  rw [totalMissingOf_eq, (applyReports_invariant rs (buildExpectedMap ps cw)).2,
    buildExpectedMap_sumExpected]

theorem sum_map_add_nat {α : Type} (l : List α) (f g : α → Nat) :
    (l.map (fun a => f a + g a)).sum = (l.map f).sum + (l.map g).sum := by
  induction l with
  | nil => rfl
  | cons a l ih =>
    simp only [List.map_cons, List.sum_cons, ih]
    omega

theorem sum_map_ite_single (keys : List Nat) (a : Nat) (c : Nat)
    (hnd : keys.Nodup) (ha : a ∈ keys) :
    (keys.map (fun u => if u = a then c else 0)).sum = c := by
  induction keys with
  | nil => cases ha
  | cons x ks ih =>
    simp only [List.nodup_cons] at hnd
    rcases List.mem_cons.mp ha with h | h
    · subst h
      simp only [List.map_cons, List.sum_cons, if_pos rfl]
      have hz : (ks.map (fun u => if u = a then c else 0)).sum = 0 := by
        apply List.sum_eq_zero
        intro y hy
        rcases List.mem_map.mp hy with ⟨u, hu, he⟩
        have hne : u ≠ a := fun hux => hnd.1 (hux ▸ hu)
        rw [← he, if_neg hne]
      simp [hz]
    · have hne : x ≠ a := fun hxa => hnd.1 (hxa ▸ h)
      simp only [List.map_cons, List.sum_cons, if_neg hne]
      rw [ih hnd.2 h]
      omega

theorem sum_fiberwise (keys : List Nat) (l : List PersonRec) (f : PersonRec → Nat)
    (hnd : keys.Nodup) (hcov : ∀ p ∈ l, p.createdBy ∈ keys) :
    (keys.map (fun u => ((l.filter (fun p => p.createdBy == u)).map f).sum)).sum
      = (l.map f).sum := by
  induction l with
  | nil => simp
  | cons p tl ih =>
    have hcov2 : ∀ q ∈ tl, q.createdBy ∈ keys := fun q hq => hcov q (List.mem_cons_of_mem _ hq)
    have hstep : ∀ u ∈ keys,
        (((p :: tl).filter (fun q => q.createdBy == u)).map f).sum
          = (if u = p.createdBy then f p else 0)
            + ((tl.filter (fun q => q.createdBy == u)).map f).sum := by
      intro u _
      by_cases h : p.createdBy = u
      · subst h
        simp [List.filter_cons]
      · have hb : (p.createdBy == u) = false := by simp [h]
        rw [List.filter_cons]
        simp only [hb, Bool.false_eq_true, if_neg (Ne.symm h)]
        simp
    calc (keys.map (fun u => (((p :: tl).filter (fun q => q.createdBy == u)).map f).sum)).sum
        = (keys.map (fun u => (if u = p.createdBy then f p else 0)
            + ((tl.filter (fun q => q.createdBy == u)).map f).sum)).sum := by
          congr 1
          exact List.map_congr_left hstep
      _ = (keys.map (fun u => if u = p.createdBy then f p else 0)).sum
            + (keys.map (fun u => ((tl.filter (fun q => q.createdBy == u)).map f).sum)).sum :=
          sum_map_add_nat keys _ _
      _ = f p + (tl.map f).sum := by
          rw [sum_map_ite_single keys p.createdBy (f p) hnd (hcov p (List.mem_cons_self p tl)),
            ih hcov2]
      _ = ((p :: tl).map f).sum := by simp

theorem filter_partition_length {α : Type} (l : List α) (p q : α → Bool) :
    (l.filter (fun a => p a && q a)).length + (l.filter (fun a => p a && !(q a))).length
      = (l.filter p).length := by
  induction l with
  | nil => rfl
  | cons a tl ih =>
    cases hp : p a <;> cases hq : q a <;> simp_all [List.filter_cons] <;> omega

/-! ## Claims -/

/-- Claim C1: for every creation timestamp C and reference timestamp R
with weekStart(C) ≤ weekStart(R), the expected-week generator
(getWeeksBetween applied to weekStart(C) and weekStart(R)) returns
exactly the arithmetic sequence weekStart(C), weekStart(C) + 7 days, ...,
weekStart(R), inclusive at both ends and in ascending order; in
particular, for creation Monday 2024-01-01 and reference Monday
2024-01-22 (both UTC midnights) it returns exactly the four Mondays
2024-01-01, 2024-01-08, 2024-01-15 and 2024-01-22. -/
theorem getWeeksBetween_full_range (C R : Int)
    (h : getMondayOfWeek C ≤ getMondayOfWeek R) :
    (∃ k : Nat,
      getMondayOfWeek C + (k : Int) * msPerWeek = getMondayOfWeek R ∧
      getWeeksBetween (getMondayOfWeek C) (getMondayOfWeek R)
        = (List.range (k + 1)).map (fun i : Nat => getMondayOfWeek C + (i : Int) * msPerWeek) ∧
      (getWeeksBetween (getMondayOfWeek C) (getMondayOfWeek R)).head?
        = some (getMondayOfWeek C) ∧
      (getWeeksBetween (getMondayOfWeek C) (getMondayOfWeek R)).getLast?
        = some (getMondayOfWeek R)) ∧
    getWeeksBetween 1704067200000 1705881600000
      = [1704067200000, 1704672000000, 1705276800000, 1705881600000] := by
  constructor
  · have h2 : getMondayOfWeek (getMondayOfWeek C) ≤ getMondayOfWeek (getMondayOfWeek R) := by
      rw [getMondayOfWeek_idem, getMondayOfWeek_idem]
      exact h
    obtain ⟨k, hk, hlist⟩ := getWeeksBetween_char (getMondayOfWeek C) (getMondayOfWeek R) h2
    simp only [getMondayOfWeek_idem] at hk hlist
    refine ⟨k, hk, hlist, ?_, ?_⟩
    · rw [hlist, List.range_succ_eq_map]
      simp
    · rw [hlist, range_map_getLast? k _]
      rw [hk]
  · decide

theorem getWeeksBetween_full_range_witness :
    getMondayOfWeek 1704067200000 ≤ getMondayOfWeek 1705881600000 ∧
    getWeeksBetween 1704067200000 1705881600000
      = [1704067200000, 1704672000000, 1705276800000, 1705881600000] :=
  ⟨by decide, (getWeeksBetween_full_range 1704067200000 1705881600000 (by decide)).2⟩

/-- Claim C2: weekStart(T) always falls on a Monday (day-of-week 1) with
the time of day zeroed; a Sunday timestamp (day-of-week 0) maps to the
Monday six days earlier, not the upcoming Monday; and weekStart is
idempotent. -/
theorem getMondayOfWeek_spec (t : Int) :
    jsGetDay (getMondayOfWeek t) = 1 ∧
    getMondayOfWeek t % msPerDay = 0 ∧
    (jsGetDay t = 0 → getMondayOfWeek t = startOfDay t - 6 * msPerDay) ∧
    getMondayOfWeek (getMondayOfWeek t) = getMondayOfWeek t :=
  ⟨jsGetDay_getMondayOfWeek t, getMondayOfWeek_emod_day t,
    getMondayOfWeek_sunday t, getMondayOfWeek_idem t⟩

theorem getMondayOfWeek_spec_witness :
    jsGetDay 259200000 = 0 ∧
    getMondayOfWeek 259200000 = startOfDay 259200000 - 6 * msPerDay :=
  ⟨by decide, (getMondayOfWeek_spec 259200000).2.2.1 (by decide)⟩

/-- Claim C8 counterexample: the creation timestamp Tuesday 2024-01-02 is
strictly after the reference timestamp Monday 2024-01-01, yet
getWeeksBetween returns the one-entry sequence holding the shared week
start, not the empty sequence, because the loop compares week starts and
both timestamps normalize to the same Monday. -/
theorem getWeeksBetween_same_week_nonempty :
    (1704067200000 : Int) < 1704153600000 ∧
    getWeeksBetween 1704153600000 1704067200000 = [1704067200000] :=
  ⟨by decide, by decide⟩

/-- Claim C8 amended: the expected-week generator returns the empty
sequence exactly when the creation week start is strictly after the
reference week start (no error in any case - the function is total); a
creation timestamp later than the reference but falling in the same week
still produces that single week. -/
theorem getWeeksBetween_empty_iff (c r : Int) :
    getWeeksBetween c r = [] ↔ getMondayOfWeek r < getMondayOfWeek c :=
  getWeeksBetween_eq_nil_iff c r

/-- Claim C3: in the completion accumulator, a valid report event whose
normalized report week (weekStart of its weekOf date) is not a key of the
expected-week bucket map leaves the bucket map - and hence every actual
count and the actual total - completely unchanged, in both the user loop
(reportStep) and the admin loop (adminReportStep, including its running
actual total); an event whose normalized week equals an expected bucket
key increments the actual total by exactly one. -/
theorem backdated_report_spec (m : WeekMap) (mc : WeekMap × Nat) (r : ReportRec) :
    (mapHas m (getMondayOfWeek r.weekOf) = false →
      reportStep m (getMondayOfWeek r.weekOf) = m) ∧
    (mapHas mc.1 (getMondayOfWeek r.weekOf) = false →
      adminReportStep mc (getMondayOfWeek r.weekOf) = mc) ∧
    ((keysOf m).Nodup → mapHas m (getMondayOfWeek r.weekOf) = true →
      totalActualOf (reportStep m (getMondayOfWeek r.weekOf)) = totalActualOf m + 1) ∧
    (mapHas mc.1 (getMondayOfWeek r.weekOf) = true →
      (adminReportStep mc (getMondayOfWeek r.weekOf)).2 = mc.2 + 1) :=
  ⟨reportStep_not_has m _, adminReportStep_not_has mc _,
    fun hnd hk => reportStep_totalActual_has m _ hnd hk,
    fun hk => by rw [adminReportStep, if_pos hk]⟩

theorem backdated_report_spec_witness :
    reportStep [(345600000, ⟨1, 0⟩)] (getMondayOfWeek ((⟨1, 7, -259200000⟩ : ReportRec).weekOf))
      = [(345600000, ⟨1, 0⟩)] ∧
    totalActualOf (reportStep [(345600000, ⟨1, 0⟩)]
        (getMondayOfWeek ((⟨1, 7, 345600000⟩ : ReportRec).weekOf)))
      = totalActualOf [(345600000, ⟨1, 0⟩)] + 1 :=
  ⟨(backdated_report_spec [(345600000, ⟨1, 0⟩)] ([], 0) ⟨1, 7, -259200000⟩).1 (by decide),
    (backdated_report_spec [(345600000, ⟨1, 0⟩)] ([], 0) ⟨1, 7, 345600000⟩).2.2.1
      (by decide) (by decide)⟩

/-- Claim C4: for every bucket of the derived week statistics and for the
overall user-statistics totals, missing = expected - actual, and the
completion rate is actual / expected * 100 rounded to one decimal place
when expected > 0 and the distinct literal 0 (never a division error)
when expected = 0; a bucket with expected 1 and actual 0 yields missing 1
and the rate string 0.0 (zero tenths), and a scope with expected 0 (empty
entity set) yields the literal 0. -/
theorem completion_derivation_spec :
    (∀ (m : WeekMap), ∀ b ∈ weekStatsOf m,
      b.missing = (b.expected : Int) - (b.actual : Int) ∧
      (0 < b.expected → b.completionRate = RateStr.fixed1 (rateTenths b.actual b.expected)) ∧
      (b.expected = 0 → b.completionRate = RateStr.zeroStr)) ∧
    (∀ (persons : List PersonRec) (reports : List ReportRec) (userId : Nat) (now : Int),
      (getUserStatistics persons reports userId now).totalMissingReports
        = ((getUserStatistics persons reports userId now).totalExpectedReports : Int)
          - ((getUserStatistics persons reports userId now).totalActualReports : Int) ∧
      (getUserStatistics persons reports userId now).reportCompletionRate
        = completionRateOf (getUserStatistics persons reports userId now).totalExpectedReports
            (getUserStatistics persons reports userId now).totalActualReports) ∧
    bucketOut 345600000 ⟨1, 0⟩
      = { week := 345600000, expected := 1, actual := 0, missing := 1,
          completionRate := RateStr.fixed1 0 } ∧
    (getUserStatistics [] [] 0 0).totalExpectedReports = 0 ∧
    (getUserStatistics [] [] 0 0).reportCompletionRate = RateStr.zeroStr := by
  refine ⟨?_, ?_, by decide, by decide, by decide⟩
  · intro m b hb
    rcases List.mem_map.mp hb with ⟨p, hp, he⟩
    subst he
    refine ⟨rfl, ?_, ?_⟩
    · intro hpos
      simp only [bucketOut] at hpos ⊢
      simp [completionRateOf, hpos]
    · intro hzero
      simp only [bucketOut] at hzero ⊢
      simp [completionRateOf, hzero]
  · intro persons reports userId now
    constructor
    · simp only [getUserStatistics]
      exact accumulator_missing _ _ _
    · rfl

theorem completion_derivation_spec_witness :
    (bucketOut 345600000 ⟨1, 0⟩).missing
        = ((bucketOut 345600000 ⟨1, 0⟩).expected : Int)
          - ((bucketOut 345600000 ⟨1, 0⟩).actual : Int) ∧
    (bucketOut 345600000 ⟨1, 0⟩).completionRate
        = RateStr.fixed1 (rateTenths (bucketOut 345600000 ⟨1, 0⟩).actual
            (bucketOut 345600000 ⟨1, 0⟩).expected) :=
  ⟨(completion_derivation_spec.1 [(345600000, ⟨1, 0⟩)] (bucketOut 345600000 ⟨1, 0⟩)
      (by decide)).1,
    (completion_derivation_spec.1 [(345600000, ⟨1, 0⟩)] (bucketOut 345600000 ⟨1, 0⟩)
      (by decide)).2.1 (by decide)⟩

/-- Claim C5: for every input state, the account's report events are
partitioned by whether the referenced entity exists in the current entity
set: only events referencing an existing entity are counted
(totalReports), the count of events referencing a non-existent entity is
surfaced as a non-fatal advisory warning exactly when it is nonzero
(never as an error - the computation is total), and the two parts add up
to the account's full event count; with 2 entities and 3 events of which
one references a deleted entity, 2 events are counted (both in
totalReports and in the accumulator's actual total) and the orphan count
is 1. -/
theorem orphan_partition_spec (persons : List PersonRec) (reports : List ReportRec)
    (userId : Nat) (now : Int) :
    ((getUserStatistics persons reports userId now).totalReports
        = (reports.filter (fun r => r.reportedBy == userId &&
            ((persons.filter (fun p => p.createdBy == userId)).map (fun p => p.id)).contains
              r.person)).length ∧
      (getUserStatistics persons reports userId now).orphanWarning
        = (if 0 < (reports.filter (fun r => r.reportedBy == userId &&
              !(((persons.filter (fun p => p.createdBy == userId)).map (fun p => p.id)).contains
                r.person))).length
           then some ((reports.filter (fun r => r.reportedBy == userId &&
              !(((persons.filter (fun p => p.createdBy == userId)).map (fun p => p.id)).contains
                r.person))).length)
           else none) ∧
      (reports.filter (fun r => r.reportedBy == userId &&
          ((persons.filter (fun p => p.createdBy == userId)).map (fun p => p.id)).contains
            r.person)).length
        + (reports.filter (fun r => r.reportedBy == userId &&
            !(((persons.filter (fun p => p.createdBy == userId)).map (fun p => p.id)).contains
              r.person))).length
        = (reports.filter (fun r => r.reportedBy == userId)).length) ∧
    ((getUserStatistics [⟨1, 7, 1704067200000⟩, ⟨2, 7, 1704067200000⟩]
        [⟨1, 7, 1704067200000⟩, ⟨2, 7, 1704067200000⟩, ⟨117, 7, 1704067200000⟩]
        7 1704067200000).totalReports = 2 ∧
      (getUserStatistics [⟨1, 7, 1704067200000⟩, ⟨2, 7, 1704067200000⟩]
        [⟨1, 7, 1704067200000⟩, ⟨2, 7, 1704067200000⟩, ⟨117, 7, 1704067200000⟩]
        7 1704067200000).totalActualReports = 2 ∧
      (getUserStatistics [⟨1, 7, 1704067200000⟩, ⟨2, 7, 1704067200000⟩]
        [⟨1, 7, 1704067200000⟩, ⟨2, 7, 1704067200000⟩, ⟨117, 7, 1704067200000⟩]
        7 1704067200000).orphanWarning = some 1) := by
  refine ⟨⟨rfl, rfl, ?_⟩, by decide, by decide, by decide⟩
  exact filter_partition_length reports (fun r => r.reportedBy == userId)
    (fun r => ((persons.filter (fun p => p.createdBy == userId)).map (fun p => p.id)).contains
      r.person)

/-- Claim C6: for referentially intact stores (user ids distinct and
covering every entity owner) with no orphaned events, the sum of
expectedReports over all per-account entries of the global statistics
breakdown equals the global totalExpectedReports computed over all
entities. -/
theorem global_expected_consistency (users : List Nat) (persons : List PersonRec)
    (reports : List ReportRec) (now : Int)
    (hnd : users.Nodup)
    (hcov : ∀ p ∈ persons, p.createdBy ∈ users)
    (hnoorphan : ∀ r ∈ reports, r.person ∈ persons.map (fun p => p.id)) :
    ((getAdminStatistics users persons reports now).userReportStats.map
        (fun s => s.expectedReports)).sum
      = (getAdminStatistics users persons reports now).totalExpectedReports := by
  have howners_nd : ((persons.map (fun p => p.createdBy)).dedup).Nodup := List.nodup_dedup _
  have hstat_nd : (users.filter
      (fun u => ((persons.map (fun p => p.createdBy)).dedup).contains u)).Nodup :=
    hnd.filter _
  have hmem : ∀ u : Nat,
      u ∈ users.filter (fun u => ((persons.map (fun p => p.createdBy)).dedup).contains u)
        ↔ u ∈ (persons.map (fun p => p.createdBy)).dedup := by
    intro u
    rw [List.mem_filter]
    constructor
    · rintro ⟨hu, hc⟩
      simpa using hc
    · intro ho
      refine ⟨?_, by simpa using ho⟩
      have hm : u ∈ persons.map (fun p => p.createdBy) := List.mem_dedup.mp ho
      rcases List.mem_map.mp hm with ⟨p, hp, he⟩
      exact he ▸ hcov p hp
  have hperm : List.Perm
      (users.filter (fun u => ((persons.map (fun p => p.createdBy)).dedup).contains u))
      ((persons.map (fun p => p.createdBy)).dedup) :=
    (List.perm_ext_iff_of_nodup hstat_nd howners_nd).mpr hmem
  have hcov2 : ∀ p ∈ persons, p.createdBy ∈ (persons.map (fun q => q.createdBy)).dedup :=
    fun p hp => List.mem_dedup.mpr (List.mem_map_of_mem _ hp)
  have hfiber := sum_fiberwise ((persons.map (fun p => p.createdBy)).dedup) persons
    (fun p => (expectedWeeksOf p (getMondayOfWeek now)).length) howners_nd hcov2
  simp only [getAdminStatistics]
  rw [List.map_map]
  have hcongr : (users.filter
        (fun u => ((persons.map (fun p => p.createdBy)).dedup).contains u)).map
      ((fun s => s.expectedReports) ∘
        (fun u => adminUserStat persons reports u (getMondayOfWeek now)))
      = (users.filter
        (fun u => ((persons.map (fun p => p.createdBy)).dedup).contains u)).map
      (fun u => ((persons.filter (fun p => p.createdBy == u)).map
        (fun p => (expectedWeeksOf p (getMondayOfWeek now)).length)).sum) := by
    apply List.map_congr_left
    intro u hu
    rfl
  rw [hcongr]
  rw [List.Perm.sum_eq (hperm.map _)]
  exact hfiber

theorem global_expected_consistency_witness :
    ((getAdminStatistics [7] [⟨1, 7, 1704067200000⟩] [] 1704067200000).userReportStats.map
        (fun s => s.expectedReports)).sum
      = (getAdminStatistics [7] [⟨1, 7, 1704067200000⟩] [] 1704067200000).totalExpectedReports :=
  global_expected_consistency [7] [⟨1, 7, 1704067200000⟩] [] 1704067200000
    (by decide) (by decide) (by decide)

/-- Claim C7 counterexample: one account (id 7) owns one entity created
in the current week (Monday 2024-01-01) and has filed a single report
backdated to the previous week (Monday 2023-12-25): the admin breakdown
reports actualReports = 1 for the account, while re-running the
completion accumulator scoped to the same account (getUserStatistics)
yields an actual total of 0, because the backdated event hits no expected
bucket. -/
theorem admin_breakdown_counterexample :
    ((getAdminStatistics [7] [⟨1, 7, 1704067200000⟩] [⟨1, 7, 1703462400000⟩]
        1704067200000).userReportStats.map (fun s => s.actualReports)) = [1] ∧
    (getUserStatistics [⟨1, 7, 1704067200000⟩] [⟨1, 7, 1703462400000⟩]
        7 1704067200000).totalActualReports = 0 :=
  ⟨by decide, by decide⟩

/-- Claim C7 amended: every per-account entry of the admin breakdown
agrees with re-running the scoped per-account statistics on the entity
count and on the expected total, but its actualReports is the raw count
of the account's valid events (the scoped totalReports) rather than the
scoped accumulator's bucket-filtered actual total, and missing and
completion rate are derived from that raw count. -/
theorem admin_breakdown_spec (users : List Nat) (persons : List PersonRec)
    (reports : List ReportRec) (now : Int) :
    ∀ s ∈ (getAdminStatistics users persons reports now).userReportStats,
      s.totalContacts = (getUserStatistics persons reports s.userId now).totalContacts ∧
      s.expectedReports = (getUserStatistics persons reports s.userId now).totalExpectedReports ∧
      s.actualReports = (getUserStatistics persons reports s.userId now).totalReports ∧
      s.missingReports = (s.expectedReports : Int) - (s.actualReports : Int) ∧
      s.completionRate = completionRateOf s.expectedReports s.actualReports := by
  intro s hs
  have hs2 : s ∈ (users.filter
      (fun u => ((persons.map (fun p => p.createdBy)).dedup).contains u)).map
      (fun u => adminUserStat persons reports u (getMondayOfWeek now)) := hs
  rcases List.mem_map.mp hs2 with ⟨u, hu, he⟩
  subst he
  exact ⟨rfl, rfl, rfl, rfl, rfl⟩

theorem admin_breakdown_spec_witness :
    (adminUserStat [⟨1, 7, 1704067200000⟩] [] 7 (getMondayOfWeek 1704067200000)).totalContacts
      = (getUserStatistics [⟨1, 7, 1704067200000⟩] []
          (adminUserStat [⟨1, 7, 1704067200000⟩] [] 7
            (getMondayOfWeek 1704067200000)).userId 1704067200000).totalContacts :=
  (admin_breakdown_spec [7] [⟨1, 7, 1704067200000⟩] [] 1704067200000
    (adminUserStat [⟨1, 7, 1704067200000⟩] [] 7 (getMondayOfWeek 1704067200000))
    (by decide)).1

/-- Claim C9: addWeeklyReport never creates a report whose report-week
date lies in the future relative to the filing time: the weekly report
schema constrains weekOf by max now, and the stored createdAt is the
filing time, so every successfully stored report satisfies
weekOf ≤ createdAt. -/
theorem addWeeklyReport_no_future (persons : List PersonRec) (userId : Nat)
    (role : String) (personId : Nat) (contacted : Bool) (response : String)
    (weekOf now : Int) (rep : StoredReport)
    (h : addWeeklyReport persons userId role personId contacted response weekOf now
          = Except.ok rep) :
    rep.weekOf ≤ rep.createdAt := by
  simp only [addWeeklyReport] at h
  by_cases hv : weeklyReportSchemaOk response weekOf now = true
  · rw [if_neg (by simp [hv])] at h
    cases hfind : persons.find? (fun p => p.id == personId && p.createdBy == userId) with
    | none =>
      rw [hfind] at h
      cases h
    | some p =>
      rw [hfind] at h
      cases h
      simp only [weeklyReportSchemaOk, Bool.and_eq_true, decide_eq_true_eq] at hv
      exact hv.2
  · rw [if_pos (by simp [hv])] at h
    cases h

theorem addWeeklyReport_no_future_witness :
    (⟨1, 7, true, "ok", 0, 0⟩ : StoredReport).weekOf
      ≤ (⟨1, 7, true, "ok", 0, 0⟩ : StoredReport).createdAt :=
  addWeeklyReport_no_future [⟨1, 7, 0⟩] 7 ("user") 1 true ("ok") 0 0
    ⟨1, 7, true, "ok", 0, 0⟩ rfl

/-- Claim C10: every report successfully created through addWeeklyReport
is filed by the owner of the referenced person: the person lookup
requires createdBy to equal the requesting user for every role (the role
argument is never consulted, so the behavior is role-independent and
applies to administrators too), and when the user owns no matching person
the request fails with an error. -/
theorem addWeeklyReport_owner_spec (persons : List PersonRec) (userId : Nat)
    (role : String) (personId : Nat) (contacted : Bool) (response : String)
    (weekOf now : Int) :
    (∀ rep : StoredReport,
      addWeeklyReport persons userId role personId contacted response weekOf now
          = Except.ok rep →
      rep.reportedBy = userId ∧
      ∃ p, p ∈ persons ∧ p.id = rep.person ∧ p.createdBy = rep.reportedBy) ∧
    (∀ role2 : String,
      addWeeklyReport persons userId role personId contacted response weekOf now
        = addWeeklyReport persons userId role2 personId contacted response weekOf now) ∧
    ((∀ p ∈ persons, ¬ (p.id = personId ∧ p.createdBy = userId)) →
      ∃ e, addWeeklyReport persons userId role personId contacted response weekOf now
        = Except.error e) := by
  refine ⟨?_, fun role2 => rfl, ?_⟩
  · intro rep h
    simp only [addWeeklyReport] at h
    by_cases hv : weeklyReportSchemaOk response weekOf now = true
    · rw [if_neg (by simp [hv])] at h
      cases hfind : persons.find? (fun p => p.id == personId && p.createdBy == userId) with
      | none =>
        rw [hfind] at h
        cases h
      | some p =>
        rw [hfind] at h
        have hpred := List.find?_some hfind
        have hmem := List.mem_of_find?_eq_some hfind
        simp only [Bool.and_eq_true, beq_iff_eq] at hpred
        cases h
        exact ⟨rfl, p, hmem, hpred.1, hpred.2⟩
    · rw [if_pos (by simp [hv])] at h
      cases h
  · intro hnone
    by_cases hv : weeklyReportSchemaOk response weekOf now = true
    · refine ⟨ApiError.notFound, ?_⟩
      simp only [addWeeklyReport]
      rw [if_neg (by simp [hv])]
      have hfind : persons.find? (fun p => p.id == personId && p.createdBy == userId)
          = none := by
        rw [List.find?_eq_none]
        intro p hp
        simp only [Bool.and_eq_true, beq_iff_eq, not_and]
        intro h1 h2
        exact hnone p hp ⟨h1, h2⟩
      rw [hfind]
    · refine ⟨ApiError.badRequest, ?_⟩
      simp only [addWeeklyReport]
      rw [if_pos (by simp [hv])]

theorem addWeeklyReport_owner_spec_witness :
    (⟨1, 7, true, "ok", 0, 0⟩ : StoredReport).reportedBy = 7 ∧
    ∃ p, p ∈ [(⟨1, 7, 0⟩ : PersonRec)]
      ∧ p.id = (⟨1, 7, true, "ok", 0, 0⟩ : StoredReport).person
      ∧ p.createdBy = (⟨1, 7, true, "ok", 0, 0⟩ : StoredReport).reportedBy :=
  (addWeeklyReport_owner_spec [⟨1, 7, 0⟩] 7 ("user") 1 true ("ok") 0 0).1
    ⟨1, 7, true, "ok", 0, 0⟩ (by rfl)
